import Mathlib

/-!
Verification of the xmit-smtp-proxy IMAP gateway against its specification.

The development shallowly embeds the TypeScript source:
JavaScript strings are modelled as `String` (for cache keys, which are only
compared for equality and prefixes) or `List Char` (where character-level
parsing matters); JS numbers carrying UIDs and counters are `Int`;
`Map` iteration order is an explicit list; fallible upstream calls are
oracles of type `_ → Option _` supplied as parameters.
-/

namespace Xmit

/-! ## In-memory LRU cache (`LruCache` in src/cache/sqlite-cache.ts)

Entries are kept in `Map` iteration order (head = least recently used /
oldest inserted).  Values are opaque for the bound properties, so an entry
is represented by its key and the size computed by `estimateSize`. -/

structure LruEntry where
  key : String
  size : Nat
deriving Repr, DecidableEq

/-- The mutable state of an `LruCache`: the entries in `Map` iteration
order together with the tracked `currentMemory` counter. -/
structure LruState where
  entries : List LruEntry
  mem : Nat
deriving Repr, DecidableEq

/-- `currentMemory` agrees with the sum of the stored entry sizes.  The
class maintains this by adding on insert and subtracting on delete. -/
def LruState.wfMem (st : LruState) : Prop :=
  st.mem = (st.entries.map (·.size)).sum

instance (st : LruState) : Decidable st.wfMem := by
  unfold LruState.wfMem; infer_instance

/-- `LruCache.delete`: look the key up, subtract its size from
`currentMemory` and remove it from the map. -/
def LruState.delete (st : LruState) (k : String) : LruState :=
  match st.entries.find? (fun e => e.key == k) with
  | none => st
  | some e => ⟨st.entries.eraseP (fun e2 => e2.key == k), st.mem - e.size⟩

/-- The eviction loop inside `LruCache.set`:
`while ((size >= maxEntries || mem + newSize > maxMemory) && size > 0) evictOldest()`.
`evictOldest` deletes the first key in iteration order. -/
def lruEvictLoop (maxEntries maxMemory newSize : Nat) :
    List LruEntry → Nat → List LruEntry × Nat
  | [], m => ([], m)
  | e :: rest, m =>
    if maxEntries ≤ (e :: rest).length ∨ maxMemory < m + newSize then
      lruEvictLoop maxEntries maxMemory newSize rest (m - e.size)
    else (e :: rest, m)

/-- `LruCache.set`: remove any prior entry for the key, evict until both
limits would hold, then insert the new entry and add its size. -/
def LruState.set (st : LruState) (maxEntries maxMemory : Nat)
    (k : String) (newSize : Nat) : LruState :=
  let st1 := if st.entries.any (fun e => e.key == k) then st.delete k else st
  let p := lruEvictLoop maxEntries maxMemory newSize st1.entries st1.mem
  ⟨p.1 ++ [⟨k, newSize⟩], p.2 + newSize⟩

end Xmit

namespace Xmit

/-! Helper lemmas for the LRU bounds. -/

theorem eraseP_map_sum_of_find? (l : List LruEntry) (p : LruEntry → Bool)
    (e : LruEntry) (h : l.find? p = some e) :
    e.size ≤ (l.map (·.size)).sum ∧
      ((l.eraseP p).map (·.size)).sum = (l.map (·.size)).sum - e.size := by
  induction l with
  | nil => simp at h
  | cons a rest ih =>
    by_cases hp : p a
    · rw [List.find?_cons_of_pos _ hp] at h
      injection h with h
      subst h
      simp [List.eraseP_cons, hp]
    · rw [List.find?_cons_of_neg _ hp] at h
      obtain ⟨h1, h2⟩ := ih h
      simp only [List.eraseP_cons, hp, cond_false, List.map_cons, List.sum_cons]
      constructor
      · omega
      · rw [h2]; omega

theorem LruState.delete_wfMem (st : LruState) (k : String) (h : st.wfMem) :
    (st.delete k).wfMem := by
  unfold LruState.delete
  cases hf : st.entries.find? (fun e => e.key == k) with
  | none => exact h
  | some e =>
    obtain ⟨h1, h2⟩ := eraseP_map_sum_of_find? st.entries _ e hf
    unfold LruState.wfMem at *
    simp only []
    rw [h2, h]

theorem lruEvictLoop_spec (maxE maxM s : Nat) (l : List LruEntry) (m : Nat)
    (hwf : m = (l.map (·.size)).sum) :
    (lruEvictLoop maxE maxM s l m).2 =
        (((lruEvictLoop maxE maxM s l m).1.map (·.size)).sum) ∧
      ((lruEvictLoop maxE maxM s l m).1 = [] ∨
        ((lruEvictLoop maxE maxM s l m).1.length < maxE ∧
          (lruEvictLoop maxE maxM s l m).2 + s ≤ maxM)) := by
  induction l generalizing m with
  | nil => simp [lruEvictLoop, hwf]
  | cons e rest ih =>
    unfold lruEvictLoop
    by_cases hc : maxE ≤ (e :: rest).length ∨ maxM < m + s
    · rw [if_pos hc]
      have hm : m - e.size = (rest.map (·.size)).sum := by
        simp at hwf; omega
      exact ih (m - e.size) hm
    · rw [if_neg hc]
      push_neg at hc
      exact ⟨hwf, Or.inr ⟨by simpa using hc.1, by simpa using hc.2⟩⟩

/-- Claim C10: after `LruCache.set` with `maxEntries ≥ 1` the entry count is
at most `maxEntries`; when the new entry's estimated size fits in
`maxMemory` the tracked memory total is at most `maxMemory`; and an entry
larger than `maxMemory` on its own is still inserted after every other
entry has been evicted, leaving the tracked total above `maxMemory`. -/
theorem lruSet_bounds (st : LruState) (maxE maxM : Nat) (k : String) (s : Nat)
    (hwf : st.wfMem) (hE : 1 ≤ maxE) :
    (st.set maxE maxM k s).entries.length ≤ maxE ∧
      (s ≤ maxM → (st.set maxE maxM k s).mem ≤ maxM) ∧
      (maxM < s →
        (st.set maxE maxM k s).entries = [⟨k, s⟩] ∧
        (st.set maxE maxM k s).mem = s ∧ maxM < (st.set maxE maxM k s).mem) := by
  have hwf1 : (if st.entries.any (fun e => e.key == k) then st.delete k else st).wfMem := by
    split
    · exact st.delete_wfMem k hwf
    · exact hwf
  obtain ⟨h1, h2⟩ := lruEvictLoop_spec maxE maxM s
    (if st.entries.any (fun e => e.key == k) then st.delete k else st).entries
    (if st.entries.any (fun e => e.key == k) then st.delete k else st).mem hwf1
  unfold LruState.set
  simp only []
  rcases hq : lruEvictLoop maxE maxM s
    (if st.entries.any (fun e => e.key == k) then st.delete k else st).entries
    (if st.entries.any (fun e => e.key == k) then st.delete k else st).mem with ⟨l2, m2⟩
  rw [hq] at h1 h2
  simp only [] at h1 h2 ⊢
  refine ⟨?_, ?_, ?_⟩
  · rcases h2 with h2 | h2
    · simp [h2]; omega
    · simp only [List.length_append, List.length_cons, List.length_nil]
      omega
  · intro hs
    rcases h2 with h2 | h2
    · subst h2
      simp at h1
      simp [h1]; omega
    · omega
  · intro hs
    have hempty : l2 = [] := by
      rcases h2 with h2 | h2
      · exact h2
      · omega
    subst hempty
    simp at h1
    simp [h1]
    omega

/-- Witness for `lruSet_bounds` at a concrete state. -/
theorem lruSet_bounds_witness :
    ((⟨[⟨"a", 3⟩, ⟨"b", 4⟩], 7⟩ : LruState).wfMem ∧ 1 ≤ 2) ∧
      ((⟨[⟨"a", 3⟩, ⟨"b", 4⟩], 7⟩ : LruState).set 2 10 "c" 5).entries.length ≤ 2 :=
  ⟨⟨by decide, by decide⟩,
    (lruSet_bounds ⟨[⟨"a", 3⟩, ⟨"b", 4⟩], 7⟩ 2 10 "c" 5 (by decide) (by decide)).1⟩

/-! ## Cache key patterns and invalidation (`CacheManager` in src/cache/index.ts)

The memory tier's `deletePattern` takes a JS regex; every pattern the
`CacheManager` ever passes is an anchored literal — either `^lit$`
(exact key) or `^lit` (keys extending `lit`) — so patterns are embedded as
that two-constructor type, with `new RegExp(p).test(key)` as `KeyPat.test`.
For the coherence properties the cached values are opaque strings and TTLs
are irrelevant (all entries are taken to be within their TTL), so the
memory tier is its key/value association list. -/

inductive KeyPat where
  | exact (s : String)
  | starts (s : String)
deriving Repr, DecidableEq

def KeyPat.test : KeyPat → String → Bool
  | .exact s, k => k == s
  | .starts s, k => s.data.isPrefixOf k.data

/-- The memory cache contents: keys with their cached (opaque) values. -/
abbrev MemStore := List (String × String)

/-- `LruCache.get` restricted to lookup: `some v` means the read is served
from the cache without an upstream call. -/
def memGet (st : MemStore) (k : String) : Option String :=
  (st.find? (fun p => p.1 == k)).map (·.2)

/-- `LruCache.delete`. -/
def memDelete (st : MemStore) (k : String) : MemStore :=
  st.filter (fun p => ¬ p.1 == k)

/-- `LruCache.deletePattern`: remove every key the regex matches. -/
def memDeletePattern (st : MemStore) (pat : KeyPat) : MemStore :=
  st.filter (fun p => ¬ pat.test p.1)

/-- `cacheKey(...parts)`: join with `:`. -/
def cacheKeyOf (parts : List String) : String :=
  String.intercalate ":" parts

/-- `CacheManager.invalidateFolder` (memory tier): exact-deletes
`status:<sid>:<folder>` and `messages:<sid>:<folder>`, prefix-deletes
`message:<sid>:<folder>:`, and drops the folder list. -/
def invalidateFolderMem (st : MemStore) (senderId folderName : String) : MemStore :=
  let folderKey := senderId ++ ":" ++ folderName
  let st1 := memDeletePattern st (.exact ("status:" ++ folderKey))
  let st2 := memDeletePattern st1 (.exact ("messages:" ++ folderKey))
  let st3 := memDeletePattern st2 (.starts ("message:" ++ folderKey ++ ":"))
  memDelete st3 ("folders:" ++ senderId)

/-- `CacheManager.invalidateSender` (memory tier): anchored senderId
patterns plus an unconditional sweep of every `sender:` key. -/
def invalidateSenderMem (st : MemStore) (senderId : String) : MemStore :=
  let st1 := memDeletePattern st (.exact ("folders:" ++ senderId))
  let st2 := memDeletePattern st1 (.starts ("status:" ++ senderId ++ ":"))
  let st3 := memDeletePattern st2 (.starts ("messages:" ++ senderId ++ ":"))
  let st4 := memDeletePattern st3 (.starts ("message:" ++ senderId ++ ":"))
  memDeletePattern st4 (.starts "sender:")

/-- The flag-update invalidation in `ImapApiClient.updateFlags`: exact
deletes of the message and the bare message-list key only. -/
def updateFlagsInvalidate (st : MemStore) (senderId folderName : String)
    (uid : Int) : MemStore :=
  let st1 := memDelete st (cacheKeyOf ["message", senderId, folderName, toString uid])
  memDelete st1 (cacheKeyOf ["messages", senderId, folderName])

/-- Query options of `ImapApiClient.listMessages`.  A `limit`/`offset` of
`some 0` is falsy in the source's `if (options.limit)` guards. -/
structure ListMessagesOptions where
  uids : List Int := []
  fields : List String := []
  limit : Option Int := none
  offset : Option Int := none

/-- Stable insertion of a string into a sorted list (strictly-smaller
elements stay in front, ties keep original order). -/
def insertStr (x : String) : List String → List String
  | [] => [x]
  | y :: rest => if x < y then x :: y :: rest else y :: insertStr x rest

/-- JS `Array.prototype.sort()` without comparator sorts by string value
(stable); embedded as a stable insertion sort. -/
def jsDefaultSort : List String → List String
  | [] => []
  | x :: rest => insertStr x (jsDefaultSort rest)

/-- The query-dependent cache-key parts built at the top of
`ImapApiClient.listMessages`. -/
def mkQueryParts (o : ListMessagesOptions) : List String :=
  (if o.uids.isEmpty then [] else
    ["u:" ++ String.intercalate "," (jsDefaultSort (o.uids.map toString))]) ++
  (if o.fields.isEmpty then [] else
    ["f:" ++ String.intercalate "," (jsDefaultSort o.fields)]) ++
  (match o.limit with
    | some n => if n = 0 then [] else ["l:" ++ toString n]
    | none => []) ++
  (match o.offset with
    | some n => if n = 0 then [] else ["o:" ++ toString n]
    | none => [])

/-- The cache key `ImapApiClient.listMessages` reads and writes. -/
def listMessagesKey (senderId folderName : String) (o : ListMessagesOptions) : String :=
  let qp := mkQueryParts o
  if qp.isEmpty then cacheKeyOf ["messages", senderId, folderName]
  else cacheKeyOf ["messages", senderId, folderName, String.intercalate "|" qp]

/-- The cache-hit path of `ImapApiClient.listMessages`: a `some` result is
returned directly from the memory cache, skipping the upstream request. -/
def listMessagesCachedRead (st : MemStore) (senderId folderName : String)
    (o : ListMessagesOptions) : Option String :=
  memGet st (listMessagesKey senderId folderName o)

theorem memGet_cons (p : String × String) (rest : MemStore) (k : String) :
    memGet (p :: rest) k = if p.1 == k then some p.2 else memGet rest k := by
  unfold memGet
  rw [List.find?_cons]
  by_cases h : p.1 == k <;> simp [h]

theorem memGet_memDeletePattern (st : MemStore) (pat : KeyPat) (k : String) :
    memGet (memDeletePattern st pat) k =
      if pat.test k then none else memGet st k := by
  induction st with
  | nil => simp [memGet, memDeletePattern]
  | cons p rest ih =>
    unfold memDeletePattern at ih ⊢
    rw [List.filter_cons]
    by_cases hm : pat.test p.1
    · have hf : (decide ¬pat.test p.1 = true) = false := by simp [hm]
      rw [hf]
      simp only [Bool.false_eq_true, if_false]
      rw [ih, memGet_cons]
      by_cases hk : p.1 == k
      · have hk' : p.1 = k := by simpa using hk
        rw [← hk']
        simp [hm, hk]
      · simp [hk]
    · have ht : (decide ¬pat.test p.1 = true) = true := by simp [hm]
      rw [ht]
      simp only [if_true]
      rw [memGet_cons, memGet_cons, ih]
      by_cases hk : p.1 == k
      · have hk' : p.1 = k := by simpa using hk
        have hpk : pat.test k = false := by rw [← hk']; simpa using hm
        simp [hk, hpk]
      · simp [hk]

theorem memGet_memDelete (st : MemStore) (k' k : String) :
    memGet (memDelete st k') k = if k == k' then none else memGet st k := by
  have : memDelete st k' = memDeletePattern st (.exact k') := by
    unfold memDelete memDeletePattern KeyPat.test
    rfl
  rw [this, memGet_memDeletePattern]
  rfl

/-- Claim C2, evaluated at the failing input: `SELECT` caches the UID list
under the query-suffixed key `messages:s1:INBOX:f:UID|l:10000`; a later
successful `APPEND` runs `invalidateFolder("s1","INBOX")`, whose
`^messages:s1:INBOX$` pattern does not match that key, so the next
identical `listMessages` read is served the pre-mutation value from cache
without going upstream — contradicting the coherence claim. -/
theorem cacheCoherence_violation :
    listMessagesCachedRead
      (invalidateFolderMem
        [(listMessagesKey "s1" "INBOX" { fields := ["UID"], limit := some 10000 },
          "uid-list-before-append")]
        "s1" "INBOX")
      "s1" "INBOX" { fields := ["UID"], limit := some 10000 } =
      some "uid-list-before-append" := by
  rfl

/-- Claim C9 counterexample: `invalidateSender("abc")` runs
`deletePattern("^sender:")`, which matches (and deletes) the key
`sender:abcd` — the claim asserts that key is not deleted. -/
theorem invalidateSender_deletes_sender_abcd :
    memGet (invalidateSenderMem [("sender:abcd", "cached-sender")] "abc")
      "sender:abcd" = none := by
  rfl

/-- Claim C9 as amended: the senderId-scoped patterns are anchored, so
`invalidateSender("abc")` leaves the keys of sender `abcd`
(`folders:abcd`, `status:abcd:…`, `messages:abcd:…`, `message:abcd:…`)
untouched, but it deliberately clears every email-keyed `sender:` entry,
including `sender:abcd`. -/
theorem invalidateSender_anchored (v1 v2 v3 v4 v5 : String) :
    memGet (invalidateSenderMem
        [("folders:abcd", v1), ("status:abcd:Inbox", v2),
          ("messages:abcd:Inbox", v3), ("message:abcd:Inbox:7", v4),
          ("sender:abcd", v5)] "abc") "folders:abcd" = some v1 ∧
    memGet (invalidateSenderMem
        [("folders:abcd", v1), ("status:abcd:Inbox", v2),
          ("messages:abcd:Inbox", v3), ("message:abcd:Inbox:7", v4),
          ("sender:abcd", v5)] "abc") "status:abcd:Inbox" = some v2 ∧
    memGet (invalidateSenderMem
        [("folders:abcd", v1), ("status:abcd:Inbox", v2),
          ("messages:abcd:Inbox", v3), ("message:abcd:Inbox:7", v4),
          ("sender:abcd", v5)] "abc") "messages:abcd:Inbox" = some v3 ∧
    memGet (invalidateSenderMem
        [("folders:abcd", v1), ("status:abcd:Inbox", v2),
          ("messages:abcd:Inbox", v3), ("message:abcd:Inbox:7", v4),
          ("sender:abcd", v5)] "abc") "message:abcd:Inbox:7" = some v4 ∧
    memGet (invalidateSenderMem
        [("folders:abcd", v1), ("status:abcd:Inbox", v2),
          ("messages:abcd:Inbox", v3), ("message:abcd:Inbox:7", v4),
          ("sender:abcd", v5)] "abc") "sender:abcd" = none := by
  refine ⟨?_, ?_, ?_, ?_, ?_⟩ <;> rfl

/-! ## Sequence-set parsing (`parseSequenceSet` in src/imap/parser.ts)

The parser works character-by-character on JS strings, embedded as
`List Char`. -/

/-- JS `String.prototype.split(sep)` for a single-character separator. -/
def splitOnChar (sep : Char) : List Char → List (List Char)
  | [] => [[]]
  | c :: rest =>
    if c = sep then [] :: splitOnChar sep rest
    else
      match splitOnChar sep rest with
      | h :: t => (c :: h) :: t
      | [] => [[c]]

/-- Whitespace as skipped by JS `parseInt`. -/
def isJsSpace (c : Char) : Bool :=
  c = ' ' ∨ c = '\t' ∨ c = '\n' ∨ c = '\r' ∨ c = '\x0b' ∨ c = '\x0c'

/-- Decimal value of a digit sequence (left fold, as successive
`digit = 10 * acc + d`). -/
def charsToNat (s : List Char) : Nat :=
  s.foldl (fun a c => a * 10 + (c.toNat - 48)) 0

/-- The leading-digit-run part of JS `parseInt`: `none` corresponds to a
`NaN` result. -/
def digitsVal (s : List Char) : Option Nat :=
  let ds := s.takeWhile Char.isDigit
  if ds.isEmpty then none else some (charsToNat ds)

/-- JS `parseInt(s)` (base 10): skip leading whitespace, optional sign,
then the longest digit run; `none` models `NaN`. -/
def jsParseInt (s : List Char) : Option Int :=
  match s.dropWhile isJsSpace with
  | '-' :: rest => (digitsVal rest).map (fun n => -(n : Int))
  | '+' :: rest => (digitsVal rest).map (fun n => (n : Int))
  | rest => (digitsVal rest).map (fun n => (n : Int))

/-- Stable insertion into an ascending list of numbers. -/
def insertInt (x : Int) : List Int → List Int
  | [] => [x]
  | y :: rest => if x ≤ y then x :: y :: rest else y :: insertInt x rest

/-- Ascending numeric sort, as produced by `.sort((a, b) => a - b)`. -/
def sortInt : List Int → List Int
  | [] => []
  | x :: rest => insertInt x (sortInt rest)

/-- `[...new Set(l)]`: deduplication keeping first occurrences. -/
def jsSetDedupAux (seen : List Int) : List Int → List Int
  | [] => []
  | x :: rest =>
    if x ∈ seen then jsSetDedupAux seen rest
    else x :: jsSetDedupAux (x :: seen) rest

def jsSetDedup (l : List Int) : List Int := jsSetDedupAux [] l

/-- `[...new Set(result)].sort((a, b) => a - b)`. -/
def dedupSortInt (l : List Int) : List Int := sortInt (jsSetDedup l)

/-- The per-atom body of the `parseSequenceSet` loop: an atom is `*`
(the last UID), a range (swap ends if reversed, `*` meaning the last UID,
a `NaN` end selecting nothing), or a bare number (selected when present in
the vector). -/
def seqAtomSel (uids : List Int) (part : List Char) : List Int :=
  if part = ['*'] then
    match uids.getLast? with
    | some u => [u]
    | none => []
  else if part.any (fun c => c == ':') then
    match splitOnChar ':' part with
    | startStr :: endStr :: _ =>
      let s? : Option Int := if startStr = ['*'] then uids.getLast? else jsParseInt startStr
      let e? : Option Int := if endStr = ['*'] then uids.getLast? else jsParseInt endStr
      match s?, e? with
      | some a, some b =>
        uids.filter (fun u => decide (min a b ≤ u ∧ u ≤ max a b))
      | _, _ => []
    | _ => []
  else
    match jsParseInt part with
    | some n => if n ∈ uids then [n] else []
    | none => []

/-- `parseSequenceSet(set, uids)`: split on commas, collect each atom's
selection, deduplicate and sort ascending.  An empty vector
short-circuits to the empty list. -/
def parseSequenceSet (set : List Char) (uids : List Int) : List Int :=
  if uids.isEmpty then [] else
  dedupSortInt ((splitOnChar ',' set).flatMap (seqAtomSel uids))

end Xmit

namespace Xmit

/-! Support lemmas for `parseSequenceSet`. -/

theorem insertInt_perm (x : Int) (l : List Int) : (insertInt x l).Perm (x :: l) := by
  induction l with
  | nil => simp [insertInt]
  | cons y rest ih =>
    unfold insertInt
    by_cases h : x ≤ y
    · simp [h]
    · rw [if_neg h]
      exact (ih.cons y).trans (List.Perm.swap x y rest)

theorem insertInt_sorted (x : Int) (l : List Int) (h : l.Pairwise (· ≤ ·)) :
    (insertInt x l).Pairwise (· ≤ ·) := by
  induction l with
  | nil => simp [insertInt]
  | cons y rest ih =>
    unfold insertInt
    rcases List.pairwise_cons.mp h with ⟨hy, hrest⟩
    by_cases hx : x ≤ y
    · rw [if_pos hx]
      refine List.pairwise_cons.mpr ⟨?_, h⟩
      intro a ha
      rcases List.mem_cons.mp ha with rfl | ha
      · exact hx
      · exact le_trans hx (hy a ha)
    · rw [if_neg hx]
      refine List.pairwise_cons.mpr ⟨?_, ih hrest⟩
      intro a ha
      have := (insertInt_perm x rest).mem_iff.mp ha
      rcases List.mem_cons.mp this with rfl | ha'
      · omega
      · exact hy a ha'

theorem sortInt_perm (l : List Int) : (sortInt l).Perm l := by
  induction l with
  | nil => simp [sortInt]
  | cons x rest ih =>
    exact (insertInt_perm x (sortInt rest)).trans (ih.cons x)

theorem sortInt_sorted (l : List Int) : (sortInt l).Pairwise (· ≤ ·) := by
  induction l with
  | nil => simp [sortInt]
  | cons x rest ih => exact insertInt_sorted x (sortInt rest) ih

theorem insertInt_of_le (x : Int) (l : List Int) (h : ∀ y ∈ l, x ≤ y) :
    insertInt x l = x :: l := by
  cases l with
  | nil => rfl
  | cons y rest => simp [insertInt, h y (by simp)]

theorem sortInt_of_sorted (l : List Int) (h : l.Pairwise (· ≤ ·)) :
    sortInt l = l := by
  induction l with
  | nil => rfl
  | cons x rest ih =>
    rcases List.pairwise_cons.mp h with ⟨hx, hrest⟩
    unfold sortInt
    rw [ih hrest]
    exact insertInt_of_le x rest hx

theorem jsSetDedupAux_nodup (seen l : List Int) :
    (jsSetDedupAux seen l).Nodup ∧ ∀ x ∈ jsSetDedupAux seen l, x ∉ seen ∧ x ∈ l := by
  induction l generalizing seen with
  | nil => simp [jsSetDedupAux]
  | cons x rest ih =>
    unfold jsSetDedupAux
    by_cases hx : x ∈ seen
    · rw [if_pos hx]
      obtain ⟨h1, h2⟩ := ih seen
      exact ⟨h1, fun y hy => ⟨(h2 y hy).1, List.mem_cons_of_mem x (h2 y hy).2⟩⟩
    · rw [if_neg hx]
      obtain ⟨h1, h2⟩ := ih (x :: seen)
      refine ⟨List.nodup_cons.mpr ⟨?_, h1⟩, ?_⟩
      · intro hmem
        exact ((h2 x hmem).1) (List.mem_cons_self x seen)
      · intro y hy
        rcases List.mem_cons.mp hy with rfl | hy'
        · exact ⟨hx, List.mem_cons_self y rest⟩
        · obtain ⟨hs, hl⟩ := h2 y hy'
          exact ⟨fun hyseen => hs (List.mem_cons_of_mem x hyseen),
            List.mem_cons_of_mem x hl⟩

theorem jsSetDedup_nodup (l : List Int) : (jsSetDedup l).Nodup :=
  (jsSetDedupAux_nodup [] l).1

theorem jsSetDedup_subset (l : List Int) : ∀ x ∈ jsSetDedup l, x ∈ l :=
  fun x hx => ((jsSetDedupAux_nodup [] l).2 x hx).2

theorem jsSetDedupAux_of_nodup (seen l : List Int) (h : l.Nodup)
    (hd : ∀ x ∈ l, x ∉ seen) : jsSetDedupAux seen l = l := by
  induction l generalizing seen with
  | nil => rfl
  | cons x rest ih =>
    rcases List.nodup_cons.mp h with ⟨hx, hrest⟩
    unfold jsSetDedupAux
    rw [if_neg (hd x (List.mem_cons_self x rest))]
    congr 1
    refine ih (x :: seen) hrest ?_
    intro y hy hmem
    rcases List.mem_cons.mp hmem with rfl | hseen
    · exact hx hy
    · exact hd y (List.mem_cons_of_mem x hy) hseen

theorem jsSetDedup_of_nodup (l : List Int) (h : l.Nodup) : jsSetDedup l = l :=
  jsSetDedupAux_of_nodup [] l h (by simp)

theorem dedupSortInt_pairwise (l : List Int) :
    (dedupSortInt l).Pairwise (· < ·) := by
  unfold dedupSortInt
  have hle := sortInt_sorted (jsSetDedup l)
  have hnd : (sortInt (jsSetDedup l)).Nodup :=
    (sortInt_perm (jsSetDedup l)).nodup_iff.mpr (jsSetDedup_nodup l)
  have := hle.and hnd
  exact this.imp (fun h => lt_of_le_of_ne h.1 h.2)

theorem dedupSortInt_subset (l : List Int) : ∀ x ∈ dedupSortInt l, x ∈ l := by
  intro x hx
  unfold dedupSortInt at hx
  exact jsSetDedup_subset l x ((sortInt_perm (jsSetDedup l)).mem_iff.mp hx)

theorem dedupSortInt_of_pairwise (l : List Int) (h : l.Pairwise (· < ·)) :
    dedupSortInt l = l := by
  unfold dedupSortInt
  rw [jsSetDedup_of_nodup l (h.imp ne_of_lt)]
  exact sortInt_of_sorted l (h.imp (fun hab => le_of_lt hab))

theorem isDigit_ne_of (c d : Char) (hd : d.isDigit = false) (hc : c.isDigit = true) :
    c ≠ d := by
  intro h
  subst h
  rw [hc] at hd
  cases hd

theorem isJsSpace_of_isDigit (c : Char) (hc : c.isDigit = true) :
    isJsSpace c = false := by
  unfold isJsSpace
  simp only [decide_eq_false_iff_not]
  intro h
  rcases h with rfl | rfl | rfl | rfl | rfl | rfl <;> exact absurd hc (by decide)

theorem dropWhile_isJsSpace_of_digits (p : List Char)
    (h : ∀ c ∈ p, c.isDigit = true) : p.dropWhile isJsSpace = p := by
  cases p with
  | nil => rfl
  | cons c rest =>
    rw [List.dropWhile_cons]
    rw [isJsSpace_of_isDigit c (h c (List.mem_cons_self c rest))]
    simp

theorem takeWhile_digits_of_digits (p : List Char)
    (h : ∀ c ∈ p, c.isDigit = true) : p.takeWhile Char.isDigit = p := by
  induction p with
  | nil => rfl
  | cons c rest ih =>
    rw [List.takeWhile_cons]
    rw [h c (List.mem_cons_self c rest)]
    simp only [if_true]
    rw [ih (fun d hd => h d (List.mem_cons_of_mem c hd))]

theorem digitsVal_of_digits (p : List Char) (hne : p ≠ [])
    (h : ∀ c ∈ p, c.isDigit = true) : digitsVal p = some (charsToNat p) := by
  unfold digitsVal
  rw [takeWhile_digits_of_digits p h]
  simp only [List.isEmpty_iff]
  rw [if_neg hne]

theorem jsParseInt_of_digits (p : List Char) (hne : p ≠ [])
    (h : ∀ c ∈ p, c.isDigit = true) :
    jsParseInt p = some ((charsToNat p : Int)) := by
  unfold jsParseInt
  rw [dropWhile_isJsSpace_of_digits p h]
  cases p with
  | nil => exact absurd rfl hne
  | cons c rest =>
    have hcd := h c (List.mem_cons_self c rest)
    have hm : c ≠ '-' := isDigit_ne_of c '-' (by decide) hcd
    have hp : c ≠ '+' := isDigit_ne_of c '+' (by decide) hcd
    have hdv := digitsVal_of_digits (c :: rest) hne h
    split
    · next heq =>
      injection heq with h1 h2
      exact absurd h1 hm
    · next heq =>
      injection heq with h1 h2
      exact absurd h1 hp
    · simp [hdv]

theorem splitOnChar_of_not_mem (sep : Char) (s : List Char)
    (h : ∀ c ∈ s, ¬ c = sep) : splitOnChar sep s = [s] := by
  induction s with
  | nil => rfl
  | cons c rest ih =>
    unfold splitOnChar
    rw [if_neg (h c (List.mem_cons_self c rest))]
    rw [ih (fun d hd => h d (List.mem_cons_of_mem c hd))]

theorem splitOnChar_append (sep : Char) (s1 s2 : List Char)
    (h : ∀ c ∈ s1, ¬ c = sep) :
    splitOnChar sep (s1 ++ sep :: s2) = s1 :: splitOnChar sep s2 := by
  induction s1 with
  | nil =>
    simp only [List.nil_append]
    conv_lhs => unfold splitOnChar
    rw [if_pos rfl]
  | cons c rest ih =>
    simp only [List.cons_append]
    conv_lhs => unfold splitOnChar
    rw [if_neg (h c (List.mem_cons_self c rest))]
    rw [ih (fun d hd => h d (List.mem_cons_of_mem c hd))]

theorem any_colon_of_digits (p : List Char) (h : ∀ c ∈ p, c.isDigit = true) :
    p.any (fun c => c == ':') = false := by
  rw [List.any_eq_false]
  intro c hc
  simp only [beq_iff_eq]
  exact isDigit_ne_of c ':' (by decide) (h c hc)

theorem not_star_of_digits (p : List Char) (h : ∀ c ∈ p, c.isDigit = true) :
    p ≠ ['*'] := by
  intro heq
  subst heq
  exact absurd (h '*' (by simp)) (by decide)

/-- The selection of a bare numeric atom. -/
theorem seqAtomSel_num (uids : List Int) (p : List Char) (hne : p ≠ [])
    (h : ∀ c ∈ p, c.isDigit = true) :
    seqAtomSel uids p =
      if (charsToNat p : Int) ∈ uids then [(charsToNat p : Int)] else [] := by
  unfold seqAtomSel
  rw [if_neg (not_star_of_digits p h)]
  rw [any_colon_of_digits p h]
  simp only [Bool.false_eq_true, if_false]
  rw [jsParseInt_of_digits p hne h]

/-- The selection of a `*` atom. -/
theorem seqAtomSel_star (uids : List Int) (u : Int) (hu : uids.getLast? = some u) :
    seqAtomSel uids ['*'] = [u] := by
  unfold seqAtomSel
  rw [if_pos rfl, hu]

theorem ne_star_of_len (p : List Char) (h : 2 ≤ p.length) : p ≠ ['*'] := by
  intro heq
  rw [heq] at h
  simp at h

theorem any_colon_append (pre post : List Char) :
    (pre ++ ':' :: post).any (fun c => c == ':') = true := by
  rw [List.any_eq_true]
  exact ⟨':', by simp, by simp⟩

/-- The selection of a numeric range atom `N:M`. -/
theorem seqAtomSel_range (uids : List Int) (pN pM : List Char)
    (hNne : pN ≠ []) (hN : ∀ c ∈ pN, c.isDigit = true)
    (hMne : pM ≠ []) (hM : ∀ c ∈ pM, c.isDigit = true) :
    seqAtomSel uids (pN ++ ':' :: pM) =
      uids.filter (fun u => decide
        (min (charsToNat pN : Int) (charsToNat pM : Int) ≤ u ∧
          u ≤ max (charsToNat pN : Int) (charsToNat pM : Int))) := by
  have hNc : ∀ c ∈ pN, ¬ c = ':' :=
    fun c hc => isDigit_ne_of c ':' (by decide) (hN c hc)
  have hMc : ∀ c ∈ pM, ¬ c = ':' :=
    fun c hc => isDigit_ne_of c ':' (by decide) (hM c hc)
  unfold seqAtomSel
  rw [if_neg (ne_star_of_len _ (by cases pN with
    | nil => exact absurd rfl hNne
    | cons a t => simp; omega))]
  rw [any_colon_append]
  simp only [if_true]
  rw [splitOnChar_append ':' pN pM hNc, splitOnChar_of_not_mem ':' pM hMc]
  dsimp only
  rw [if_neg (not_star_of_digits pN hN), if_neg (not_star_of_digits pM hM)]
  rw [jsParseInt_of_digits pN hNne hN, jsParseInt_of_digits pM hMne hM]

/-- The selection of a range atom `N:*`. -/
theorem seqAtomSel_range_star_right (uids : List Int) (pN : List Char) (u : Int)
    (hNne : pN ≠ []) (hN : ∀ c ∈ pN, c.isDigit = true)
    (hu : uids.getLast? = some u) :
    seqAtomSel uids (pN ++ [':', '*']) =
      uids.filter (fun x => decide
        (min (charsToNat pN : Int) u ≤ x ∧ x ≤ max (charsToNat pN : Int) u)) := by
  have hNc : ∀ c ∈ pN, ¬ c = ':' :=
    fun c hc => isDigit_ne_of c ':' (by decide) (hN c hc)
  unfold seqAtomSel
  rw [if_neg (ne_star_of_len _ (by cases pN with
    | nil => exact absurd rfl hNne
    | cons a t => simp))]
  rw [show pN ++ [':', '*'] = pN ++ ':' :: ['*'] from rfl, any_colon_append]
  simp only [if_true]
  rw [splitOnChar_append ':' pN ['*'] hNc,
    splitOnChar_of_not_mem ':' ['*'] (by decide)]
  dsimp only
  rw [if_neg (not_star_of_digits pN hN), if_pos rfl]
  rw [jsParseInt_of_digits pN hNne hN, hu]

/-- The selection of a range atom `*:M`. -/
theorem seqAtomSel_range_star_left (uids : List Int) (pM : List Char) (u : Int)
    (hMne : pM ≠ []) (hM : ∀ c ∈ pM, c.isDigit = true)
    (hu : uids.getLast? = some u) :
    seqAtomSel uids ('*' :: ':' :: pM) =
      uids.filter (fun x => decide
        (min u (charsToNat pM : Int) ≤ x ∧ x ≤ max u (charsToNat pM : Int))) := by
  have hMc : ∀ c ∈ pM, ¬ c = ':' :=
    fun c hc => isDigit_ne_of c ':' (by decide) (hM c hc)
  unfold seqAtomSel
  rw [if_neg (ne_star_of_len _ (by simp))]
  rw [show '*' :: ':' :: pM = ['*'] ++ ':' :: pM from rfl, any_colon_append]
  simp only [if_true]
  rw [splitOnChar_append ':' ['*'] pM (by decide),
    splitOnChar_of_not_mem ':' pM hMc]
  dsimp only
  rw [if_pos rfl, if_neg (not_star_of_digits pM hM)]
  rw [hu, jsParseInt_of_digits pM hMne hM]

theorem mem_of_getLast?_eq (l : List Int) (u : Int) (h : l.getLast? = some u) :
    u ∈ l := by
  have hm : u ∈ l.getLast? := by rw [h]; rfl
  obtain ⟨hne, heq⟩ := List.mem_getLast?_eq_getLast hm
  rw [heq]
  exact List.getLast_mem hne

theorem mem_rangeSel (uids : List Int) (s? e? : Option Int) (x : Int)
    (hx : x ∈ (match s?, e? with
      | some a, some b =>
        uids.filter (fun u => decide (min a b ≤ u ∧ u ≤ max a b))
      | _, _ => ([] : List Int))) : x ∈ uids := by
  cases s? with
  | none => cases e? <;> simp at hx
  | some a =>
    cases e? with
    | none => simp at hx
    | some b => exact (List.mem_filter.mp hx).1

/-- Every selected element comes from the vector. -/
theorem seqAtomSel_subset (uids : List Int) (part : List Char) :
    ∀ x ∈ seqAtomSel uids part, x ∈ uids := by
  intro x hx
  unfold seqAtomSel at hx
  split at hx
  · split at hx
    · next u hu =>
      rw [List.mem_singleton] at hx
      subst hx
      exact mem_of_getLast?_eq uids x hu
    · simp at hx
  · split at hx
    · split at hx
      · exact mem_rangeSel uids _ _ x hx
      · simp at hx
    · split at hx
      · split at hx
        · next hmem =>
          rw [List.mem_singleton] at hx
          subst hx
          exact hmem
        · simp at hx
      · simp at hx

/-- `parseSequenceSet` on a comma-free set string. -/
theorem parseSequenceSet_single (uids : List Int) (p : List Char)
    (hp : ∀ c ∈ p, ¬ c = ',') :
    parseSequenceSet p uids =
      if uids.isEmpty then [] else dedupSortInt (seqAtomSel uids p) := by
  unfold parseSequenceSet
  rw [splitOnChar_of_not_mem ',' p hp]
  simp

/-- Claim C7: for every sequence-set string and strictly ascending UID
vector, `parseSequenceSet` returns a deduplicated ascending list of
vector elements; a bare numeric atom selects its value exactly when it is
in the vector; `*` selects the last element; a range (either end possibly
`*`, ends swapped if reversed) selects the vector elements in the closed
interval; and the result for the empty vector is empty. -/
theorem parseSequenceSet_spec (uids : List Int) (hasc : uids.Pairwise (· < ·)) :
    (∀ s, (parseSequenceSet s uids).Pairwise (· < ·)) ∧
    (∀ s, ∀ x ∈ parseSequenceSet s uids, x ∈ uids) ∧
    (∀ s, parseSequenceSet s [] = []) ∧
    (∀ p, p ≠ [] → (∀ c ∈ p, c.isDigit = true) →
      parseSequenceSet p uids =
        if (charsToNat p : Int) ∈ uids then [(charsToNat p : Int)] else []) ∧
    (∀ u, uids.getLast? = some u → parseSequenceSet ['*'] uids = [u]) ∧
    (∀ pN pM, pN ≠ [] → (∀ c ∈ pN, c.isDigit = true) →
      pM ≠ [] → (∀ c ∈ pM, c.isDigit = true) →
      parseSequenceSet (pN ++ ':' :: pM) uids =
        uids.filter (fun u => decide
          (min (charsToNat pN : Int) (charsToNat pM : Int) ≤ u ∧
            u ≤ max (charsToNat pN : Int) (charsToNat pM : Int)))) ∧
    (∀ pN u, pN ≠ [] → (∀ c ∈ pN, c.isDigit = true) → uids.getLast? = some u →
      parseSequenceSet (pN ++ [':', '*']) uids =
        uids.filter (fun x => decide
          (min (charsToNat pN : Int) u ≤ x ∧ x ≤ max (charsToNat pN : Int) u)) ∧
      parseSequenceSet ('*' :: ':' :: pN) uids =
        uids.filter (fun x => decide
          (min u (charsToNat pN : Int) ≤ x ∧ x ≤ max u (charsToNat pN : Int)))) := by
  have hfilter : ∀ (q : Int → Bool), (uids.filter q).Pairwise (· < ·) :=
    fun q => hasc.sublist (List.filter_sublist uids)
  have hemp : uids.isEmpty = true → uids = [] := by
    intro h
    exact List.isEmpty_iff.mp h
  refine ⟨?_, ?_, ?_, ?_, ?_, ?_, ?_⟩
  · intro s
    unfold parseSequenceSet
    split
    · exact List.Pairwise.nil
    · exact dedupSortInt_pairwise _
  · intro s x hx
    unfold parseSequenceSet at hx
    split at hx
    · simp at hx
    · have hx' := dedupSortInt_subset _ x hx
      obtain ⟨part, _, hpart⟩ := List.mem_flatMap.mp hx'
      exact seqAtomSel_subset uids part x hpart
  · intro s
    rfl
  · intro p hne hdig
    rw [parseSequenceSet_single uids p
      (fun c hc => isDigit_ne_of c ',' (by decide) (hdig c hc))]
    split
    · next he =>
      rw [hemp he]
      simp
    · rw [seqAtomSel_num uids p hne hdig]
      split
      · exact dedupSortInt_of_pairwise _ (List.pairwise_singleton _ _)
      · rfl
  · intro u hu
    rw [parseSequenceSet_single uids ['*'] (by decide)]
    split
    · next he =>
      rw [hemp he] at hu
      simp at hu
    · rw [seqAtomSel_star uids u hu]
      exact dedupSortInt_of_pairwise _ (List.pairwise_singleton _ _)
  · intro pN pM hNne hN hMne hM
    have hcomma : ∀ c ∈ pN ++ ':' :: pM, ¬ c = ',' := by
      intro c hc
      rcases List.mem_append.mp hc with hc | hc
      · exact isDigit_ne_of c ',' (by decide) (hN c hc)
      · rcases List.mem_cons.mp hc with rfl | hc
        · decide
        · exact isDigit_ne_of c ',' (by decide) (hM c hc)
    rw [parseSequenceSet_single uids _ hcomma]
    split
    · next he =>
      rw [hemp he]
      simp [hemp he]
    · rw [seqAtomSel_range uids pN pM hNne hN hMne hM]
      exact dedupSortInt_of_pairwise _ (hfilter _)
  · intro pN u hNne hN hu
    constructor
    · have hcomma : ∀ c ∈ pN ++ [':', '*'], ¬ c = ',' := by
        intro c hc
        rcases List.mem_append.mp hc with hc | hc
        · exact isDigit_ne_of c ',' (by decide) (hN c hc)
        · rcases List.mem_cons.mp hc with rfl | hc
          · decide
          · rcases List.mem_cons.mp hc with rfl | hc
            · decide
            · simp at hc
      rw [parseSequenceSet_single uids _ hcomma]
      split
      · next he =>
        rw [hemp he] at hu
        simp at hu
      · rw [seqAtomSel_range_star_right uids pN u hNne hN hu]
        exact dedupSortInt_of_pairwise _ (hfilter _)
    · have hcomma : ∀ c ∈ '*' :: ':' :: pN, ¬ c = ',' := by
        intro c hc
        rcases List.mem_cons.mp hc with rfl | hc
        · decide
        · rcases List.mem_cons.mp hc with rfl | hc
          · decide
          · exact isDigit_ne_of c ',' (by decide) (hN c hc)
      rw [parseSequenceSet_single uids _ hcomma]
      split
      · next he =>
        rw [hemp he] at hu
        simp at hu
      · rw [seqAtomSel_range_star_left uids pN u hNne hN hu]
        exact dedupSortInt_of_pairwise _ (hfilter _)

/-- Witness for `parseSequenceSet_spec` at the vector `[10, 20, 30]`. -/
theorem parseSequenceSet_spec_witness :
    parseSequenceSet ['1', '0'] [10, 20, 30] = [10] := by
  have h := (parseSequenceSet_spec [10, 20, 30] (by decide)).2.2.2.1
    ['1', '0'] (by decide) (by decide)
  simpa using h

/-! ## Session state machine and command handlers
(src/imap/commands/index.ts, src/imap/server.ts)

Handlers are embedded as pure functions: every upstream call a handler
makes is an oracle parameter (`Option`-valued for fallible calls), and the
session fields a handler reads or writes are threaded explicitly.  Only the
session fields relevant to the verified claims are modelled. -/

inductive SessionState where
  | notAuthenticated
  | authenticated
  | selected
  | logout
deriving Repr, DecidableEq

/-- The per-session selected-folder record stored by `handleSelect`. -/
structure SelectedFolder where
  id : String
  name : String
  uidValidity : Int
  uidNext : Int
  readOnly : Bool
  messageUids : List Int
  highestModSeq : Int
deriving Repr, DecidableEq

/-- The session fields governed by the `selectedFolder ≠ ∅ ⇔ Selected`
invariant. -/
structure Session where
  state : SessionState
  selectedFolder : Option SelectedFolder
deriving Repr, DecidableEq

/-- The invariant of claim C5. -/
def sessionInv (s : Session) : Prop :=
  s.selectedFolder.isSome ↔ s.state = .selected

instance (s : Session) : Decidable (sessionInv s) := by
  unfold sessionInv; infer_instance

/-- `handlers.LOGOUT`: sets the state to logout; `selectedFolder` is left
untouched. -/
def logoutSession (s : Session) : Session :=
  { s with state := .logout }

/-- `handlers.CLOSE` (session part): back to authenticated, folder
cleared. -/
def closeSession (s : Session) : Session :=
  { s with state := .authenticated, selectedFolder := none }

/-- `handlers.LOGIN` / `handlers.AUTHENTICATE` on success: state becomes
authenticated; `selectedFolder` untouched. -/
def loginOkSession (s : Session) : Session :=
  { s with state := .authenticated }

/-- `handleSelect` on success (session part): state selected, folder
stored. -/
def selectOkSession (s : Session) (f : SelectedFolder) : Session :=
  { s with state := .selected, selectedFolder := some f }

/-- A wire response object (`ImapResponse`). -/
inductive Resp where
  | untagged (data : String)
  | cont (msg : String)
  | tagged (tag : String) (status : String) (code : Option String) (msg : String)
deriving Repr, DecidableEq

def Resp.codeOf : Resp → Option String
  | .tagged _ _ code _ => code
  | _ => none

/-! ### SELECT / EXAMINE (`handleSelect`) -/

/-- Upstream `FolderStatus` (the field `exists` is `existsCount` here,
since `exists` is reserved in Lean). -/
structure FolderStatus where
  uidValidity : Int
  uidNext : Int
  existsCount : Int
  recent : Int
  unseen : Int
  highestModSeq : Int
  flags : List String
  permanentFlags : List String
deriving Repr, DecidableEq

/-- A message as returned by `listMessages` with `fields: [UID]` plus
flags; `seen` abbreviates the source's case-insensitive
`flags?.some(f => f.toLowerCase() === "\\seen")` test. -/
structure MsgLite where
  uid : Int
  seen : Bool
deriving Repr, DecidableEq

/-- The hard-coded `uidValidityOffset` added in `handleSelect`. -/
def uidValidityOffset : Int := 1000000000

/-- The first-unseen scan in `handleSelect`: 1-based index of the first
message without `\Seen`, `none` when every message is seen. -/
def firstUnseenSeq (messages : List MsgLite) : Option Nat :=
  (messages.findIdx? (fun m => !m.seen)).map (· + 1)

/-- The success path of `handleSelect`: build `messageUids` (ascending),
store the `SelectedFolder`, and emit the untagged responses followed by
the tagged OK.  The emitted UIDVALIDITY is `status.uidValidity +
uidValidityOffset` (the source's temporary client-resync hack), while the
stored folder keeps the upstream value. -/
def handleSelectOk (tag : String) (readOnly : Bool) (senderId folderName : String)
    (status : FolderStatus) (messages : List MsgLite) :
    List Resp × SelectedFolder :=
  let messageUids := sortInt (messages.map (·.uid))
  let folder : SelectedFolder :=
    ⟨senderId, folderName, status.uidValidity, status.uidNext, readOnly,
      messageUids, status.highestModSeq⟩
  let adjustedUidValidity := status.uidValidity + uidValidityOffset
  let base : List Resp := [
    .untagged (toString status.existsCount ++ " EXISTS"),
    .untagged (toString status.recent ++ " RECENT"),
    .untagged ("FLAGS (" ++ String.intercalate " " status.flags ++ ")"),
    .untagged ("OK [PERMANENTFLAGS (" ++ String.intercalate " " status.permanentFlags ++ ")]"),
    .untagged ("OK [UIDVALIDITY " ++ toString adjustedUidValidity ++ "] UIDs valid"),
    .untagged ("OK [UIDNEXT " ++ toString status.uidNext ++ "] Predicted next UID")]
  let unseenResp : List Resp :=
    if status.unseen > 0 ∧ messages ≠ [] then
      match firstUnseenSeq messages with
      | some seq => [.untagged ("OK [UNSEEN " ++ toString seq ++ "] First unseen message")]
      | none => []
    else []
  (base ++ unseenResp ++
    [.tagged tag "OK" (some (if readOnly then "READ-ONLY" else "READ-WRITE"))
      ((if readOnly then "EXAMINE" else "SELECT") ++ " completed")],
    folder)

/-! ### APPEND (`handlers.APPEND`) -/

/-- `handlers.APPEND`: arguments checked, literal required, mailbox
resolved (`resolvedSender = none` means `resolveMailbox` found no sender),
then the upstream append; on success the OK carries
`APPENDUID <Date.now()> <uid>`.  The flags/date parsing does not influence
the response shape and is elided. -/
def appendHandler (tag : String) (args : List String) (literalData : Option String)
    (resolvedSender : Option String) (upstreamUid : Option Int) (now : Int) : Resp :=
  if args.length < 1 then .tagged tag "BAD" none "APPEND requires mailbox name"
  else match literalData with
  | none => .tagged tag "BAD" none "APPEND requires message data"
  | some _ =>
    match resolvedSender with
    | none => .tagged tag "NO" (some "TRYCREATE") "Mailbox does not exist"
    | some _ =>
      match upstreamUid with
      | none => .tagged tag "NO" none "Failed to append message"
      | some uid =>
        .tagged tag "OK"
          (some ("APPENDUID " ++ toString now ++ " " ++ toString uid))
          "APPEND completed"

/-! ### MOVE (`handlers.MOVE`) -/

def joinComma (l : List Int) : String :=
  String.intercalate "," (l.map toString)

/-- The per-UID loop of `handlers.MOVE`: call the upstream move; on
success record the new UID, and if the UID is still in the vector emit
`<indexOf + 1> EXPUNGE` and splice it out.  Returns (responses, newUids,
final vector). -/
def moveLoop (upstream : Int → Option Int) :
    List Int → List Int → List Resp × List Int × List Int
  | [], vec => ([], [], vec)
  | uid :: rest, vec =>
    match upstream uid with
    | none => moveLoop upstream rest vec
    | some newUid =>
      if uid ∈ vec then
        let idx := vec.indexOf uid
        let r := moveLoop upstream rest (vec.eraseIdx idx)
        (Resp.untagged (toString (idx + 1) ++ " EXPUNGE") :: r.1,
          newUid :: r.2.1, r.2.2)
      else
        let r := moveLoop upstream rest vec
        (r.1, newUid :: r.2.1, r.2.2)

/-- `handlers.MOVE` (UID variant): resolve the sequence set against the
session's vector, run the move loop, then emit the tagged OK whose
`COPYUID` code (target UIDVALIDITY falling back to `Date.now()` when
falsy, source set, new-UID set) appears when at least one move
succeeded.  Returns (responses, final messageUids). -/
def moveHandler (tag : String) (upstream : Int → Option Int)
    (targetUidValidity : Option Int) (now : Int)
    (seqSet : List Char) (vec : List Int) : List Resp × List Int :=
  let uids := parseSequenceSet seqSet vec
  let r := moveLoop upstream uids vec
  let uidValidity := match targetUidValidity with
    | some v => if v = 0 then now else v
    | none => now
  (r.1 ++ [Resp.tagged tag "OK"
    (if r.2.1.length > 0 then
      some ("COPYUID " ++ toString uidValidity ++ " " ++ joinComma uids ++
        " " ++ joinComma r.2.1)
     else none)
    "MOVE completed"], r.2.2)

/-- The spec's description of the MOVE expunge stream: for each UID whose
move the upstream reports successful, emit an untagged EXPUNGE carrying
the UID's current 1-based position in the vector, then splice the UID out
so later EXPUNGE lines use the shifted numbering. -/
def specMoveExpunges (upstream : Int → Option Int) :
    List Int → List Int → List Resp
  | [], _ => []
  | uid :: rest, cur =>
    if (upstream uid).isSome ∧ uid ∈ cur then
      Resp.untagged (toString (cur.indexOf uid + 1) ++ " EXPUNGE") ::
        specMoveExpunges upstream rest (cur.erase uid)
    else specMoveExpunges upstream rest cur

/-- Claim C3 counterexample: at upstream UIDVALIDITY 5, the untagged line
reports `1000000005` (the stored `selectedFolder.uidValidity` is 5), so
the emitted value is the shifted one, not the upstream value. -/
theorem selectUidValidity_shifted :
    ((handleSelectOk "c" false "s1" "INBOX" ⟨5, 6, 1, 0, 0, 0, [], []⟩
        [⟨7, true⟩]).1[4]? =
      some (Resp.untagged "OK [UIDVALIDITY 1000000005] UIDs valid")) ∧
    (handleSelectOk "c" false "s1" "INBOX" ⟨5, 6, 1, 0, 0, 0, [], []⟩
        [⟨7, true⟩]).2.uidValidity = 5 ∧
    ("OK [UIDVALIDITY 1000000005] UIDs valid" ≠
      "OK [UIDVALIDITY 5] UIDs valid") := by
  refine ⟨?_, ?_, ?_⟩ <;> decide

/-- Claim C3 as amended: for every successful SELECT/EXAMINE the untagged
UIDVALIDITY line reports `status.uidValidity + 1000000000` (the hard-coded
client-resync offset), while the session's stored `selectedFolder` keeps
the upstream `status.uidValidity` unshifted. -/
theorem selectUidValidity_amended (tag : String) (ro : Bool) (sid fn : String)
    (status : FolderStatus) (messages : List MsgLite) :
    (handleSelectOk tag ro sid fn status messages).1[4]? =
      some (Resp.untagged ("OK [UIDVALIDITY " ++
        toString (status.uidValidity + uidValidityOffset) ++ "] UIDs valid")) ∧
    (handleSelectOk tag ro sid fn status messages).2.uidValidity =
      status.uidValidity := by
  constructor
  · simp [handleSelectOk]
  · rfl

/-- Claim C4 counterexample: a successful APPEND at clock 1700000000000
into a target folder whose UIDVALIDITY is 42 carries the code
`APPENDUID 1700000000000 7` — the current clock, not the target's
UIDVALIDITY 42 required by the claim. -/
theorem appendUid_uses_clock :
    appendHandler "d" ["Drafts"] (some "msg") (some "s1") (some 7)
        1700000000000 =
      Resp.tagged "d" "OK" (some "APPENDUID 1700000000000 7")
        "APPEND completed" ∧
    ("APPENDUID 1700000000000 7" : String) ≠ "APPENDUID 42 7" :=
  ⟨rfl, by decide⟩

/-- Claim C4 as amended: a successful APPEND returns OK carrying
`APPENDUID <Date.now()> <new-uid>` — the first number is the gateway's
clock, not the target UIDVALIDITY — and an unresolvable mailbox returns
NO with resp-text-code TRYCREATE. -/
theorem appendHandler_amended (tag mb lit sid : String) (uid now : Int) :
    appendHandler tag [mb] (some lit) (some sid) (some uid) now =
      Resp.tagged tag "OK"
        (some ("APPENDUID " ++ toString now ++ " " ++ toString uid))
        "APPEND completed" ∧
    appendHandler tag [mb] (some lit) none (some uid) now =
      Resp.tagged tag "NO" (some "TRYCREATE") "Mailbox does not exist" :=
  ⟨rfl, rfl⟩

/-- Claim C5 counterexample: from a Selected session satisfying the
invariant, LOGOUT sets the state to logout without clearing
`selectedFolder`, so the invariant `selectedFolder ≠ ∅ ⇔ state = Selected`
no longer holds after the handler completes. -/
theorem logout_breaks_sessionInv :
    sessionInv ⟨.selected, some ⟨"s1", "INBOX", 1, 2, false, [10], 0⟩⟩ ∧
    ¬ sessionInv
      (logoutSession ⟨.selected, some ⟨"s1", "INBOX", 1, 2, false, [10], 0⟩⟩) := by
  decide

/-- Claim C5 as amended: every handler except LOGOUT preserves the
invariant — CLOSE restores it, a successful SELECT/EXAMINE establishes it,
a successful LOGIN (from not-authenticated, where no folder is selected)
preserves it, and handlers that only replace the selected folder's
contents keep it — while LOGOUT breaks it exactly when run with a folder
selected. -/
theorem sessionInv_preservation (s : Session) (f f' : SelectedFolder)
    (hinv : sessionInv s) :
    sessionInv (closeSession s) ∧
    sessionInv (selectOkSession s f) ∧
    (s.state = .notAuthenticated → sessionInv (loginOkSession s)) ∧
    (s.state = .selected → sessionInv { s with selectedFolder := some f' }) ∧
    (s.state ≠ .selected → sessionInv (logoutSession s)) ∧
    (s.state = .selected → ¬ sessionInv (logoutSession s)) := by
  refine ⟨?_, ?_, ?_, ?_, ?_, ?_⟩
  · simp [closeSession, sessionInv]
  · simp [selectOkSession, sessionInv]
  · intro h
    unfold sessionInv at hinv ⊢
    unfold loginOkSession
    simp only []
    rw [hinv, h]
    simp
  · intro h
    unfold sessionInv
    simp [h]
  · intro h
    unfold sessionInv at hinv ⊢
    unfold logoutSession
    simp only []
    rw [hinv]
    simp [h]
  · intro h
    unfold sessionInv at hinv ⊢
    unfold logoutSession
    simp only []
    rw [hinv, h]
    simp

/-- Witness for `sessionInv_preservation` at a concrete selected session. -/
theorem sessionInv_preservation_witness :
    sessionInv (closeSession
      ⟨.selected, some ⟨"s1", "INBOX", 1, 2, false, [10], 0⟩⟩) :=
  (sessionInv_preservation
    ⟨.selected, some ⟨"s1", "INBOX", 1, 2, false, [10], 0⟩⟩
    ⟨"s1", "INBOX", 1, 2, false, [10], 0⟩
    ⟨"s1", "INBOX", 1, 2, false, [10], 0⟩ (by decide)).1

/-! Lemmas relating the MOVE loop to the spec's description. -/

theorem eraseIdx_indexOf_eq_erase (vec : List Int) (u : Int) (h : u ∈ vec) :
    vec.eraseIdx (vec.indexOf u) = vec.erase u := by
  induction vec with
  | nil => simp at h
  | cons v rest ih =>
    by_cases hv : v = u
    · subst hv
      rw [List.indexOf_cons_self, List.eraseIdx_cons_zero, List.erase_cons_head]
    · have hu : u ∈ rest := by
        rcases List.mem_cons.mp h with h' | h'
        · exact absurd h'.symm hv
        · exact h'
      rw [List.indexOf_cons_ne _ hv, List.eraseIdx_cons_succ,
        List.erase_cons_tail (by simpa using hv), ih hu]

theorem moveLoop_fst (f : Int → Option Int) (uids : List Int) :
    ∀ vec, (moveLoop f uids vec).1 = specMoveExpunges f uids vec := by
  induction uids with
  | nil => intro vec; rfl
  | cons uid rest ih =>
    intro vec
    unfold moveLoop specMoveExpunges
    cases hf : f uid with
    | none => simp [ih vec]
    | some nu =>
      dsimp only
      by_cases hm : uid ∈ vec
      · rw [if_pos hm, if_pos (by simp [hm])]
        rw [eraseIdx_indexOf_eq_erase vec uid hm, ih (vec.erase uid)]
      · rw [if_neg hm, if_neg (by simp [hm])]
        exact ih vec

theorem moveLoop_newUids (f : Int → Option Int) (uids : List Int) :
    ∀ vec, (moveLoop f uids vec).2.1 = uids.filterMap f := by
  induction uids with
  | nil => intro vec; rfl
  | cons uid rest ih =>
    intro vec
    unfold moveLoop
    cases hf : f uid with
    | none => simp [List.filterMap_cons, hf, ih vec]
    | some nu =>
      dsimp only
      by_cases hm : uid ∈ vec
      · rw [if_pos hm]
        simp [List.filterMap_cons, hf, ih]
      · rw [if_neg hm]
        simp [List.filterMap_cons, hf, ih]

theorem filter_erase_of_nodup (vec : List Int) (hnd : vec.Nodup)
    (p q : Int → Bool) (u : Int) (hu : p u = false)
    (hq : ∀ x ∈ vec, x ≠ u → p x = q x) :
    vec.filter p = (vec.erase u).filter q := by
  induction vec with
  | nil => rfl
  | cons v rest ih =>
    rcases List.nodup_cons.mp hnd with ⟨hv, hrest⟩
    by_cases hvu : v = u
    · subst hvu
      rw [List.erase_cons_head, List.filter_cons, hu]
      simp only [Bool.false_eq_true, if_false]
      exact List.filter_congr (fun x hx =>
        hq x (List.mem_cons_of_mem v hx) (fun hxv => hv (hxv ▸ hx)))
    · rw [List.erase_cons_tail (by simpa using hvu), List.filter_cons,
        List.filter_cons]
      rw [hq v (List.mem_cons_self v rest) hvu]
      rw [ih hrest (fun x hx hxne => hq x (List.mem_cons_of_mem v hx) hxne)]

theorem moveLoop_final (f : Int → Option Int) (uids : List Int) :
    ∀ vec, vec.Nodup →
      (moveLoop f uids vec).2.2 =
        vec.filter (fun u => decide ¬(u ∈ uids ∧ (f u).isSome)) := by
  induction uids with
  | nil =>
    intro vec _
    simp [moveLoop]
  | cons uid rest ih =>
    intro vec hnd
    unfold moveLoop
    cases hf : f uid with
    | none =>
      rw [ih vec hnd]
      exact List.filter_congr (fun x hx => by
        by_cases hxu : x = uid
        · subst hxu
          simp [hf]
        · simp [List.mem_cons, hxu])
    | some nu =>
      dsimp only
      by_cases hm : uid ∈ vec
      · rw [if_pos hm]
        rw [eraseIdx_indexOf_eq_erase vec uid hm]
        rw [ih (vec.erase uid) (hnd.erase uid)]
        refine (filter_erase_of_nodup vec hnd _ _ uid ?_ ?_).symm
        · simp [hf]
        · intro x _ hxu
          simp [List.mem_cons, hxu]
      · rw [if_neg hm]
        rw [ih vec hnd]
        exact List.filter_congr (fun x hx => by
          have hxu : x ≠ uid := fun h => hm (h ▸ hx)
          simp [List.mem_cons, hxu])

theorem filterMap_length_pos_iff (f : Int → Option Int) (l : List Int) :
    0 < (l.filterMap f).length ↔ ∃ u ∈ l, (f u).isSome := by
  rw [List.length_pos]
  constructor
  · intro h
    rcases List.exists_mem_of_ne_nil _ h with ⟨b, hb⟩
    rcases (List.mem_filterMap).mp hb with ⟨u, hu, hfu⟩
    exact ⟨u, hu, by simp [hfu]⟩
  · rintro ⟨u, hu, hfu⟩
    intro hnil
    rcases Option.isSome_iff_exists.mp hfu with ⟨b, hb⟩
    have : b ∈ l.filterMap f := List.mem_filterMap.mpr ⟨u, hu, hb⟩
    rw [hnil] at this
    simp at this

/-- Claim C1: for every UID MOVE over a selected folder with a strictly
ascending UID vector and a nonzero target UIDVALIDITY, the handler emits —
for each per-UID move the upstream reports successful — an untagged
`<seq> EXPUNGE` whose `seq` is the UID's current 1-based index in the
vector at the moment of emission, splicing the UID out so later EXPUNGE
lines use the shifted numbering; the final vector keeps exactly the
unmoved UIDs; and the tagged OK carries a COPYUID code exactly when at
least one move succeeded. -/
theorem moveHandler_spec (vec : List Int) (hasc : vec.Pairwise (· < ·))
    (f : Int → Option Int) (tag : String) (tv : Int) (htv : tv ≠ 0)
    (now : Int) (s : List Char) :
    (moveHandler tag f (some tv) now s vec).1 =
      specMoveExpunges f (parseSequenceSet s vec) vec ++
        [Resp.tagged tag "OK"
          (if 0 < ((parseSequenceSet s vec).filterMap f).length then
            some ("COPYUID " ++ toString tv ++ " " ++
              joinComma (parseSequenceSet s vec) ++ " " ++
              joinComma ((parseSequenceSet s vec).filterMap f))
           else none)
          "MOVE completed"] ∧
    (moveHandler tag f (some tv) now s vec).2 =
      vec.filter (fun u => decide ¬(u ∈ parseSequenceSet s vec ∧ (f u).isSome)) ∧
    (0 < ((parseSequenceSet s vec).filterMap f).length ↔
      ∃ u ∈ parseSequenceSet s vec, (f u).isSome) := by
  have hnd : vec.Nodup := hasc.imp ne_of_lt
  unfold moveHandler
  simp only []
  rw [if_neg htv]
  rw [moveLoop_fst, moveLoop_newUids, moveLoop_final f _ vec hnd]
  exact ⟨rfl, rfl, filterMap_length_pos_iff f _⟩

/-- Witness for `moveHandler_spec`: the spec's own scenario — vector
`[10, 20, 30]`, `UID MOVE 10,30` with every move succeeding — yields
`1 EXPUNGE`, `2 EXPUNGE`, a COPYUID-tagged OK, and final vector `[20]`. -/
theorem moveHandler_spec_witness :
    moveHandler "f" (fun u => some (u + 100)) (some 77) 999
        ['1', '0', ',', '3', '0'] [10, 20, 30] =
      ([Resp.untagged "1 EXPUNGE", Resp.untagged "2 EXPUNGE",
        Resp.tagged "f" "OK" (some "COPYUID 77 10,30 110,130")
          "MOVE completed"], [20]) := by
  obtain ⟨h1, h2, _⟩ := moveHandler_spec [10, 20, 30] (by decide)
    (fun u => some (u + 100)) "f" 77 (by decide) 999 ['1', '0', ',', '3', '0']
  refine Prod.ext ?_ ?_
  · rw [h1]
    decide
  · rw [h2]
    decide

/-! ## String formatting (`formatString` in src/imap/formatter.ts) and the
quoted-argument stripping in `parseCommand` (src/imap/parser.ts) -/

/-- JS `string.length`: UTF-16 code units. -/
def utf16Len (s : List Char) : Nat :=
  (s.map (fun c => if c.toNat < 65536 then 1 else 2)).sum

/-- `Buffer.byteLength(s)`: UTF-8 bytes. -/
def utf8Len (s : List Char) : Nat :=
  (s.map Char.utf8Size).sum

/-- The `/[\r\n"]/` test in `formatString`. -/
def hasCrLfQuote (s : List Char) : Bool :=
  s.any (fun c => c = '\r' ∨ c = '\n' ∨ c = '"')

/-- `value.replace(/\\/g, "\\\\")`. -/
def escapeBackslash (s : List Char) : List Char :=
  s.flatMap (fun c => if c = '\\' then ['\\', '\\'] else [c])

/-- `.replace(/"/g, '\\"')`. -/
def escapeQuote (s : List Char) : List Char :=
  s.flatMap (fun c => if c = '"' then ['\\', '"'] else [c])

def natToChars (n : Nat) : List Char := (Nat.repr n).data

/-- `formatString(value)`: a literal `\x7bn\x7dCRLF<value>` when the value
contains CR, LF or a double quote or its JS length exceeds 100, where `n`
is `Buffer.byteLength(value)` (UTF-8 bytes); otherwise a quoted string
escaping backslash and double quote. -/
def formatString (value : List Char) : List Char :=
  if hasCrLfQuote value ∨ utf16Len value > 100 then
    '\x7b' :: natToChars (utf8Len value) ++ '\x7d' :: '\r' :: '\n' :: value
  else '"' :: escapeQuote (escapeBackslash value) ++ ['"']

/-- `arg.replace(/\\"/g, '"')`: the left-to-right non-overlapping
replacement of each `\"` by `"`. -/
def replaceEscQuote : List Char → List Char
  | [] => []
  | [c] => [c]
  | c1 :: c2 :: rest =>
    if c1 = '\\' ∧ c2 = '"' then '"' :: replaceEscQuote rest
    else c1 :: replaceEscQuote (c2 :: rest)

/-- The quoted-argument cleanup in `parseCommand`: strip the surrounding
quotes and unescape `\"` (the doubled backslashes produced by
`formatString` are left untouched). -/
def stripQuotedArg (arg : List Char) : List Char :=
  if arg.head? = some '"' ∧ arg.getLast? = some '"' then
    replaceEscQuote ((arg.drop 1).dropLast)
  else arg

/-- A byte-oriented literal reader: consume characters until the byte
budget is exhausted (the framer collects exactly `n` bytes after
`\x7bn\x7dCRLF`). -/
def takeUtf8 : Nat → List Char → List Char
  | _, [] => []
  | n, c :: rest => if n = 0 then [] else c :: takeUtf8 (n - c.utf8Size) rest

/-- Claim C8 counterexample, two parts at explicit inputs:
(1) 51 copies of `é` occupy 102 UTF-8 bytes — more than 100 — yet
`formatString` quotes them because the threshold counts UTF-16 code units
(51); the claim requires the literal form beyond 100 bytes.
(2) the one-character string `\` is quoted as `"\\"`, and the parser's
stripping only unescapes `\"`, returning `\\` — not the original `\` —
so the output does not parse back to the input. -/
theorem formatString_counterexample :
    ((formatString (List.replicate 51 'é')).head? = some '"' ∧
      100 < utf8Len (List.replicate 51 'é')) ∧
    stripQuotedArg (formatString ['\\']) = ['\\', '\\'] ∧
    ['\\', '\\'] ≠ ['\\'] := by
  refine ⟨⟨?_, ?_⟩, ?_, ?_⟩ <;> decide

theorem escapeBackslash_id (s : List Char) (h : '\\' ∉ s) :
    escapeBackslash s = s := by
  induction s with
  | nil => rfl
  | cons c rest ih =>
    unfold escapeBackslash at ih ⊢
    rw [List.flatMap_cons]
    rw [if_neg (fun e => h (by rw [← e]; exact List.mem_cons_self c rest))]
    rw [ih (fun hm => h (List.mem_cons_of_mem c hm))]
    rfl

theorem escapeQuote_id (s : List Char) (h : '"' ∉ s) :
    escapeQuote s = s := by
  induction s with
  | nil => rfl
  | cons c rest ih =>
    unfold escapeQuote at ih ⊢
    rw [List.flatMap_cons]
    rw [if_neg (fun e => h (by rw [← e]; exact List.mem_cons_self c rest))]
    rw [ih (fun hm => h (List.mem_cons_of_mem c hm))]
    rfl

theorem replaceEscQuote_id (s : List Char) (h : '\\' ∉ s) :
    replaceEscQuote s = s := by
  induction s with
  | nil => rfl
  | cons c rest ih =>
    have hc : c ≠ '\\' := fun e => h (e ▸ List.mem_cons_self c rest)
    cases rest with
    | nil => rfl
    | cons c2 rest2 =>
      show replaceEscQuote (c :: c2 :: rest2) = _
      unfold replaceEscQuote
      rw [if_neg (fun hand => hc hand.1)]
      congr 1
      exact ih (fun hm => h (List.mem_cons_of_mem c hm))

theorem takeUtf8_append (x : List Char) : ∀ rest, takeUtf8 (utf8Len x) (x ++ rest) = x := by
  induction x with
  | nil =>
    intro rest
    cases rest with
    | nil => rfl
    | cons c t =>
      show takeUtf8 0 (c :: t) = []
      unfold takeUtf8
      rw [if_pos rfl]
  | cons c x' ih =>
    intro rest
    show takeUtf8 (utf8Len (c :: x')) (c :: (x' ++ rest)) = c :: x'
    unfold takeUtf8
    have hpos : utf8Len (c :: x') ≠ 0 := by
      have := Char.utf8Size_pos c
      unfold utf8Len
      simp
      omega
    rw [if_neg hpos]
    have hsub : utf8Len (c :: x') - c.utf8Size = utf8Len x' := by
      unfold utf8Len
      simp
    rw [hsub, ih rest]

/-- Claim C8 as amended: `formatString(x)` produces the quoted form
exactly when `x` has no CR/LF/double quote and at most 100 UTF-16 code
units (not bytes); otherwise the literal form whose stated length is the
UTF-8 byte count of `x`.  The quoted form parses back to `x` under the
gateway's own argument stripping when `x` contains no backslash (the
stripping never unescapes `\\`), and the literal form is recovered intact
by a byte-budget reader consuming exactly the stated number of bytes. -/
theorem formatString_amended (x : List Char) :
    (hasCrLfQuote x = false → utf16Len x ≤ 100 →
      formatString x = '"' :: escapeQuote (escapeBackslash x) ++ ['"']) ∧
    (hasCrLfQuote x = true ∨ 100 < utf16Len x →
      formatString x =
        '\x7b' :: natToChars (utf8Len x) ++ '\x7d' :: '\r' :: '\n' :: x) ∧
    (hasCrLfQuote x = false → utf16Len x ≤ 100 → '\\' ∉ x →
      stripQuotedArg (formatString x) = x) ∧
    (∀ rest, takeUtf8 (utf8Len x) (x ++ rest) = x) := by
  refine ⟨?_, ?_, ?_, ?_⟩
  · intro h1 h2
    unfold formatString
    rw [if_neg (by simp [h1]; omega)]
  · intro h
    unfold formatString
    rw [if_pos (by rcases h with h | h
                   · exact Or.inl h
                   · exact Or.inr (by omega))]
  · intro h1 h2 h3
    have hq : '"' ∉ x := by
      intro hm
      rw [hasCrLfQuote, List.any_eq_false] at h1
      have := h1 '"' hm
      simp at this
    unfold formatString
    rw [if_neg (by simp [h1]; omega)]
    rw [escapeBackslash_id x h3, escapeQuote_id x hq]
    unfold stripQuotedArg
    rw [if_pos ?side]
    case side =>
      constructor
      · rfl
      · rw [show ('"' :: x ++ ['"'] : List Char) = ('"' :: x) ++ ['"'] by simp]
        exact List.getLast?_concat _
    rw [List.drop_one]
    rw [show ('"' :: x ++ ['"'] : List Char).tail = x ++ ['"'] by simp]
    rw [List.dropLast_concat]
    exact replaceEscQuote_id x h3
  · exact takeUtf8_append x

/-- Witness for `formatString_amended` at `x = "ab"`. -/
theorem formatString_amended_witness :
    stripQuotedArg (formatString ['a', 'b']) = ['a', 'b'] :=
  (formatString_amended ['a', 'b']).2.2.1 (by decide) (by decide) (by decide)

/-! ## Framer (`createImapServer`'s data handler in src/imap/server.ts)

The socket's byte stream is embedded as `List Char` (the size-limit
scenarios are ASCII, where bytes and characters coincide); timers are not
modelled.  Dispatching a framed command is an opaque event. -/

def MAX_LINE_SIZE : Nat := 64 * 1024
def MAX_LITERAL_SIZE : Nat := 50 * 1024 * 1024

structure PendingLit where
  command : List Char
  size : Nat
  collected : List Char
deriving Repr, DecidableEq

inductive FramerEvt where
  | send (line : String)
  | dispatch (line : List Char) (literal : Option (List Char))
  | doneLine
deriving Repr, DecidableEq

structure FramerSt where
  buffer : List Char
  pending : Option PendingLit
deriving Repr, DecidableEq

/-- `buffer.indexOf("\r\n")`: split at the first CRLF. -/
def splitCrlf? : List Char → Option (List Char × List Char)
  | [] => none
  | c :: rest =>
    if c = '\r' ∧ rest.head? = some '\n' then some ([], rest.tail)
    else (splitCrlf? rest).map (fun p => (c :: p.1, p.2))

/-- The `/\{(\d+)\}\s*$/` test: returns the announced literal size and
the command line with the `\x7bN\x7d` suffix removed. -/
def literalAnnounce? (line : List Char) : Option (Nat × List Char) :=
  let revNoWs := line.reverse.dropWhile isJsSpace
  match revNoWs with
  | '\x7d' :: t =>
    let ds := t.takeWhile Char.isDigit
    if ds.isEmpty then none
    else match t.drop ds.length with
      | '\x7b' :: before => some (charsToNat ds.reverse, before.reverse)
      | _ => none
  | _ => none

/-- JS `line.trim()` (on the whitespace classes relevant here). -/
def trimWs (l : List Char) : List Char :=
  ((l.dropWhile isJsSpace).reverse.dropWhile isJsSpace).reverse

/-- The CRLF line loop of the data handler.  Per line: `DONE` handling,
blank-line skip, literal announcement (oversized → untagged BAD and
`continue`; otherwise continuation, literal setup and inline completion
when the bytes are already buffered), else dispatch.  The fuel is the
initial buffer length plus one, which bounds the number of lines. -/
def processLines : Nat → List Char → Option PendingLit → List FramerEvt →
    List FramerEvt × List Char × Option PendingLit
  | 0, buf, pend, acc => (acc, buf, pend)
  | fuel + 1, buf, pend, acc =>
    match splitCrlf? buf with
    | none => (acc, buf, pend)
    | some (line, rest) =>
      if line.map Char.toUpper = "DONE".data then
        processLines fuel rest pend (acc ++ [.doneLine])
      else if (trimWs line).isEmpty then
        processLines fuel rest pend acc
      else match literalAnnounce? line with
        | some (size, cmdPfx) =>
          if size > MAX_LITERAL_SIZE then
            processLines fuel rest pend (acc ++ [.send "* BAD Literal too large"])
          else
            let acc2 := acc ++ [.send "+ Ready for literal data"]
            if rest.isEmpty then
              processLines fuel rest (some ⟨cmdPfx, size, []⟩) acc2
            else
              let chunk := rest.take size
              let buf2 := rest.drop size
              if size ≤ chunk.length then
                let buf3 := if buf2.take 2 = ['\r', '\n'] then buf2.drop 2 else buf2
                processLines fuel buf3 none
                  (acc2 ++ [.dispatch cmdPfx (some chunk)])
              else
                processLines fuel buf2 (some ⟨cmdPfx, size, chunk⟩) acc2
        | none => processLines fuel rest pend (acc ++ [.dispatch line none])

/-- One `socket.on("data")` firing: append the chunk, enforce the
command-line size limit (untagged BAD, `socket.end()`), collect a pending
literal, else run the line loop.  The boolean is true when the handler
closed the connection. -/
def onData (st : FramerSt) (data : List Char) :
    List FramerEvt × FramerSt × Bool :=
  let buffer := st.buffer ++ data
  if MAX_LINE_SIZE < buffer.length ∧ st.pending = none then
    ([.send "* BAD Command line too long"], ⟨buffer, st.pending⟩, true)
  else
    match st.pending with
    | some p =>
      let remaining := p.size - p.collected.length
      let chunk := buffer.take remaining
      let collected := p.collected ++ chunk
      let buf2 := buffer.drop remaining
      if p.size ≤ collected.length then
        let buf3 := if buf2.take 2 = ['\r', '\n'] then buf2.drop 2 else buf2
        ([.dispatch p.command (some collected)], ⟨buf3, none⟩, false)
      else
        ([], ⟨buf2, some ⟨p.command, p.size, collected⟩⟩, false)
    | none =>
      let r := processLines (buffer.length + 1) buffer none []
      (r.1, ⟨r.2.1, r.2.2⟩, false)

theorem splitCrlf?_append_crlf (l r : List Char) (h : '\r' ∉ l) :
    splitCrlf? (l ++ '\r' :: '\n' :: r) = some (l, r) := by
  induction l with
  | nil =>
    show splitCrlf? ('\r' :: '\n' :: r) = some ([], r)
    unfold splitCrlf?
    rw [if_pos ⟨rfl, rfl⟩]
    rfl
  | cons c t ih =>
    have hc : c ≠ '\r' := fun e => h (by rw [← e]; exact List.mem_cons_self c t)
    show splitCrlf? (c :: (t ++ '\r' :: '\n' :: r)) = some (c :: t, r)
    conv_lhs => unfold splitCrlf?
    rw [if_neg (fun hand => hc hand.1)]
    rw [ih (fun hm => h (List.mem_cons_of_mem c hm))]
    rfl

theorem processLines_done (fuel : Nat) (pend : Option PendingLit)
    (acc : List FramerEvt) : processLines fuel [] pend acc = (acc, [], pend) := by
  cases fuel with
  | zero => rfl
  | succ n => rfl

/-- Claim C6 counterexample (the literal half): on
`a APPEND "x" \x7b99999999\x7dCRLF` with the 50 MiB limit, the framer
emits `* BAD Literal too large` and does **not** close the connection —
the state is clean and ready for the next command — whereas the claim's
primary statement says exceeding the limit closes the connection. -/
theorem literalTooLarge_keeps_connection_open :
    onData ⟨[], none⟩ ("a APPEND \"x\" \x7b99999999\x7d\r\n").data =
      ([.send "* BAD Literal too large"], ⟨[], none⟩, false) := by
  decide

/-- Claim C6 as amended: a command line that grows past 64 KiB draws an
untagged `BAD Command line too long` and **closes** the connection, while
a literal announced above 50 MiB draws an untagged
`BAD Literal too large` and leaves the connection **open** for the next
command (as in the spec's end-to-end scenario; the spec's general rule
that both violations close the connection does not match the code). -/
theorem framerLimits_amended :
    (∀ (st : FramerSt) (data : List Char), st.pending = none →
      MAX_LINE_SIZE < (st.buffer ++ data).length →
      onData st data =
        ([.send "* BAD Command line too long"],
          ⟨st.buffer ++ data, st.pending⟩, true)) ∧
    (∀ (line : List Char) (size : Nat) (cmdPfx : List Char),
      '\r' ∉ line →
      line.length + 2 ≤ MAX_LINE_SIZE →
      ¬ line.map Char.toUpper = "DONE".data →
      (trimWs line).isEmpty = false →
      literalAnnounce? line = some (size, cmdPfx) →
      MAX_LITERAL_SIZE < size →
      onData ⟨[], none⟩ (line ++ ['\r', '\n']) =
        ([.send "* BAD Literal too large"], ⟨[], none⟩, false)) := by
  constructor
  · intro st data hpend hlen
    unfold onData
    simp only []
    rw [if_pos ⟨hlen, hpend⟩]
  · intro line size cmdPfx hnocr hlen hdone hblank hlit hsize
    unfold onData
    simp only [List.nil_append]
    rw [if_neg (fun hand => by
      simp only [List.length_append, List.length_cons, List.length_nil] at hand
      omega)]
    have hsplit : splitCrlf? (line ++ ['\r', '\n']) = some (line, []) :=
      splitCrlf?_append_crlf line [] hnocr
    conv_lhs => unfold processLines
    rw [hsplit]
    simp only []
    rw [if_neg hdone, hblank]
    simp only [Bool.false_eq_true, if_false]
    rw [hlit]
    simp only []
    rw [if_pos hsize]
    rw [processLines_done]
    simp

/-- Witness for `framerLimits_amended`: the line-size half at a buffer one
byte over the limit, and the literal half at the spec's
`APPEND "x" \x7b99999999\x7d` scenario. -/
theorem framerLimits_amended_witness :
    onData ⟨List.replicate 65537 'a', none⟩ [] =
      ([.send "* BAD Command line too long"],
        ⟨List.replicate 65537 'a' ++ [], none⟩, true) ∧
    onData ⟨[], none⟩ (("a APPEND \"x\" \x7b99999999\x7d").data ++ ['\r', '\n']) =
      ([.send "* BAD Literal too large"], ⟨[], none⟩, false) :=
  ⟨(framerLimits_amended.1 ⟨List.replicate 65537 'a', none⟩ [] rfl
      (by rw [List.append_nil, List.length_replicate]; decide)),
    (framerLimits_amended.2 ("a APPEND \"x\" \x7b99999999\x7d").data 99999999
      ("a APPEND \"x\" ").data (by decide) (by decide) (by decide) (by decide)
      (by decide) (by decide))⟩

end Xmit
